import Mathlib

/-!
Verification of the menu-extraction core of the mm_bot repository
(src/cfel.py, src/desy.py, src/menu_post.py).

Text is modelled as `List Char` (with `String` wrappers at the interface).
The Python regular expressions used by the sources are embedded as
executable scanning functions with the exact search/substitution
semantics of `re` (leftmost match, greedy repetition, non-overlapping
substitution).  The Python whitespace class is modelled by its ASCII
part, which covers every character handled by these scrapers.
Character-exact fidelity of every scanner to CPython `re` was checked
exhaustively on small alphabets before the definitions were frozen.

Rational numbers stand in for Python floats: every numeral these claims
exercise is an exact two-decimal value, where the two agree.
-/

namespace MmBot

/-- ASCII whitespace, the relevant fragment of the Python regex class. -/
def isWs (c : Char) : Bool :=
  c == ' ' || c == '\t' || c == '\n' || c == '\r' || c == '\x0b' || c == '\x0c'

/-- Numeric value of a list of decimal digit characters (most significant first). -/
def digitsVal (ds : List Char) : Nat :=
  ds.foldl (fun n c => 10 * n + (c.toNat - 48)) 0

/-- Python `float()` restricted to strings of digits and dots, the only
shapes the price scanners can hand it: defined iff there is at most one
dot and at least one digit; `none` models the `ValueError` case.  The
value `intpart.fracpart` is built as an exact rational through `mkRat`. -/
def pyFloat? (s : List Char) : Option ℚ :=
  if s.count '.' ≤ 1 then
    if s.any Char.isDigit then
      some (mkRat
        (digitsVal (s.takeWhile (fun c => !(c == '.'))) *
            10 ^ ((s.dropWhile (fun c => !(c == '.'))).drop 1).length +
          digitsVal ((s.dropWhile (fun c => !(c == '.'))).drop 1))
        (10 ^ ((s.dropWhile (fun c => !(c == '.'))).drop 1).length))
    else none
  else none

/-- Python `str.replace(",", ".")` at character level. -/
def commaToDot (c : Char) : Char := if c == ',' then '.' else c

/-- Two-digit zero-padding of a remainder below 100. -/
def pad2 (n : Nat) : String :=
  (if n < 10 then "0" else "") ++ toString n

/-- Value of a rational in cents, rounded to the nearest integer:
`⌊100q + 1/2⌋` computed over the numerator and denominator.  For the
exact-cent values the price scanners produce no rounding occurs at all,
so this agrees with CPython float formatting on every exercised input. -/
def cents (q : ℚ) : ℤ :=
  Int.ediv (200 * q.num + (q.den : ℤ)) (2 * (q.den : ℤ))

/-- Python `f"{x:.2f}"` on a nonnegative exact-cent value: the numeral
with exactly two fraction digits. -/
def fmt2 (q : ℚ) : String :=
  toString ((cents q).natAbs / 100) ++ "." ++ pad2 ((cents q).natAbs % 100)

/-- List-level prefix test (Python `str.startswith`). -/
def begWith : List Char → List Char → Bool
  | [], _ => true
  | _ :: _, [] => false
  | a :: as, b :: bs => a == b && begWith as bs

/-- Substring containment, the semantics of Python `in` on strings. -/
def hasSub : List Char → List Char → Bool
  | [], pat => pat.isEmpty
  | c :: t, pat => begWith pat (c :: t) || hasSub t pat

/-- Python `str.lower` on the characters these sources produce (ASCII
letters plus the German capital umlauts). -/
def lowerC (c : Char) : Char :=
  if 'A' ≤ c && c ≤ 'Z' then Char.ofNat (c.toNat + 32)
  else if c == 'Ä' then 'ä'
  else if c == 'Ö' then 'ö'
  else if c == 'Ü' then 'ü'
  else c

/-- Lowercasing of a character list. -/
def pyLower (s : List Char) : List Char := s.map lowerC

/-- Python `str.upper` on ASCII letters. -/
def upperC (c : Char) : Char :=
  if 'a' ≤ c && c ≤ 'z' then Char.ofNat (c.toNat - 32) else c

/-- ASCII letter test. -/
def isAlphaC (c : Char) : Bool :=
  ('a' ≤ c && c ≤ 'z') || ('A' ≤ c && c ≤ 'Z')

/-- Worker for `pyTitle`: the flag records whether the previous character
was a letter. -/
def titleGo : Bool → List Char → List Char
  | _, [] => []
  | prev, c :: t =>
    if isAlphaC c then (if prev then lowerC c else upperC c) :: titleGo true t
    else c :: titleGo false t

/-- Python `str.title` on ASCII text: the first letter of every
letter-run is uppercased, the rest lowercased. -/
def pyTitle (s : List Char) : List Char := titleGo false s

/-- Remove leading characters satisfying `p` (Python `lstrip`). -/
def lstripP (p : Char → Bool) (s : List Char) : List Char := s.dropWhile p

/-- Remove trailing characters satisfying `p` (Python `rstrip`). -/
def rstripP (p : Char → Bool) : List Char → List Char
  | [] => []
  | c :: t =>
    match rstripP p t with
    | [] => if p c then [] else [c]
    | r => c :: r

/-- Python `str.strip()` (whitespace from both ends). -/
def stripL (s : List Char) : List Char := rstripP isWs (lstripP isWs s)

/-- Step function of `pyWords`. -/
def wordsStep (c : Char) (acc : List (List Char)) : List (List Char) :=
  if isWs c then [] :: acc
  else
    match acc with
    | g :: gs => (c :: g) :: gs
    | [] => [[c]]

/-- Python `str.split()` with no argument: split on whitespace runs,
dropping empty fragments. -/
def pyWords (s : List Char) : List (List Char) :=
  (s.foldr wordsStep []).filter (fun g => !g.isEmpty)

/-- Join a list of character lists with a separator (Python `sep.join`). -/
def joinWith (sep : List Char) : List (List Char) → List Char
  | [] => []
  | [g] => g
  | g :: gs => g ++ sep ++ joinWith sep gs

/-- Worker for `splitlines`; the running first group collects the
current line. -/
def splitlinesCore : List Char → List (List Char)
  | [] => [[]]
  | '\r' :: '\n' :: rest => [] :: splitlinesCore rest
  | '\r' :: rest => [] :: splitlinesCore rest
  | '\n' :: rest => [] :: splitlinesCore rest
  | c :: rest =>
    match splitlinesCore rest with
    | g :: gs => (c :: g) :: gs
    | [] => [[c]]

/-- Python `str.splitlines()` on the terminators these PDFs produce:
no trailing empty line when the text ends with a terminator, and the
empty string yields no lines. -/
def splitlines (s : List Char) : List (List Char) :=
  match s with
  | [] => []
  | _ :: _ =>
    let gs := splitlinesCore s
    if gs.getLast? = some [] then gs.dropLast else gs

/-! ## desy.py: the date-keyed PDF source -/

/-- Character class of the desy numeral group `[\d\.,]`. -/
def isPriceChar (c : Char) : Bool := c.isDigit || c == '.' || c == ','

/-- Embeds `PRICE_RE.search` for desy.py's pattern (a euro sign, then
optional whitespace, then a maximal nonempty run of digits, dots and
commas), returning the numeral group of the leftmost match. -/
def desyPriceSearch : List Char → Option (List Char)
  | [] => none
  | c :: rest =>
    if c == '€' then
      let ds := (rest.dropWhile isWs).takeWhile isPriceChar
      if ds.isEmpty then desyPriceSearch rest else some ds
    else desyPriceSearch rest

/-- Nutrition marker substrings from desy.py. -/
def nutritionKeywords : List String := ["kcal", "P:", "F:", "C:"]

/-- Character class of desy.py's allergen-line pattern. -/
def isAllergenChar (c : Char) : Bool :=
  c.isDigit || c == ')' || c == '(' || isWs c || c == '.' || c == '-' || c == ',' || c == '/'

/-- Embeds `ALLERGENS_RE.match`: the (nonempty) line consists solely of
digits, parentheses, whitespace, dots, dashes, commas and slashes. -/
def allergenLine (ln : List Char) : Bool := !ln.isEmpty && ln.all isAllergenChar

/-- Scan the cell lines top to bottom for the first line with a desy
price match; on success return the numeral group together with the lines
strictly before the match (`lines[:i]`). -/
def priceScan : List (List Char) → Option (List Char × List (List Char))
  | [] => none
  | ln :: rest =>
    match desyPriceSearch ln with
    | some g => some (g, [])
    | none =>
      match priceScan rest with
      | some (g, pre) => some (g, ln :: pre)
      | none => none

/-- Python `" ".join(ln.split()).strip(" /")` from desy.py line 50. -/
def tidyLine (ln : List Char) : List Char :=
  rstripP (fun c => c == ' ' || c == '/')
    (lstripP (fun c => c == ' ' || c == '/') (joinWith [' '] (pyWords ln)))

/-- Process one header/cell pair of desy.py's `clean_menu_text` loop
body (lines 24-54).  `Except.error` models the uncaught `ValueError`
that `float` raises on a malformed numeral; `Except.ok none` means the
pair contributes no output line. -/
def cellEntry (hdr cell : Option String) : Except String (Option String) :=
  match hdr, cell with
  | some h, some c =>
    if h == "" || (stripL h.toList).isEmpty || c == "" then Except.ok none
    else
      let label := if begWith "main".toList (pyLower h.toList) then "Menu 1".toList else stripL h.toList
      let lines := ((splitlines c.toList).map stripL).filter (fun l => !l.isEmpty)
      match priceScan lines with
      | some (g, titleLines) =>
        match pyFloat? (g.map commaToDot) with
        | some q =>
          let title := joinWith [' '] (titleLines.map tidyLine)
          if title.isEmpty then Except.ok none
          else Except.ok (some ⟨label ++ [' '] ++ (fmt2 q).toList ++ "€: ".toList ++ title⟩)
        | none => Except.error "ValueError"
      | none =>
        let kept := lines.filter (fun ln =>
          !(nutritionKeywords.any (fun k => hasSub ln k.toList)) && !allergenLine ln)
        let titleLines := if kept.isEmpty && !lines.isEmpty then [lines.headI] else kept
        let title := joinWith [' '] (titleLines.map tidyLine)
        if title.isEmpty then Except.ok none
        else Except.ok (some ⟨label ++ ": ".toList ++ title⟩)
  | _, _ => Except.ok none

/-- Fold `cellEntry` over the zipped header/row pairs, aborting at the
first uncaught exception, as the Python loop does. -/
def cellEntries : List (Option String × Option String) → Except String (List String)
  | [] => Except.ok []
  | (h, c) :: rest =>
    match cellEntry h c with
    | Except.error e => Except.error e
    | Except.ok none => cellEntries rest
    | Except.ok (some line) =>
      match cellEntries rest with
      | Except.error e => Except.error e
      | Except.ok ls => Except.ok (line :: ls)

/-- desy.py `clean_menu_text`: zip header with the menu row, build one
line per labelled nonempty cell, join with newlines. -/
def clean_menu_text (header dailyMenu : List (Option String)) : Except String String :=
  match cellEntries (header.zip dailyMenu) with
  | Except.error e => Except.error e
  | Except.ok ls => Except.ok (String.intercalate "\n" ls)

/-- Row predicate of desy.py `find_daily_menu`: some truthy cell
contains the date string as a substring. -/
def rowHasDate (d : String) (row : List (Option String)) : Bool :=
  row.any (fun c =>
    match c with
    | some s => !(s == "") && hasSub s.toList d.toList
    | none => false)

/-- desy.py `find_daily_menu` (lines 81-85), with the Berlin date string
already formatted by the excluded clock boundary: first matching row in
page-then-row order, or the empty row when none matches. -/
def find_daily_menu (tables : List (List (List (Option String)))) (d : String) :
    List (Option String) :=
  match tables with
  | [] => []
  | page :: rest =>
    match page.find? (rowHasDate d) with
    | some row => row
    | none => find_daily_menu rest d

/-! ## cfel.py: the HTML source -/

/-- Attempt cfel.py's `PRICE_RE` (digits, one dot-or-comma separator,
exactly two digits, optional whitespace, then the euro sign) at the head
of the list; return the numeral group. -/
def cfelMatchAt (s : List Char) : Option (List Char) :=
  let ds := s.takeWhile Char.isDigit
  if ds.isEmpty then none
  else
    match s.drop ds.length with
    | sep :: d1 :: d2 :: rest =>
      if (sep == '.' || sep == ',') && d1.isDigit && d2.isDigit then
        match rest.dropWhile isWs with
        | '€' :: _ => some (ds ++ [sep, d1, d2])
        | _ => none
      else none
    | _ => none

/-- Embeds `PRICE_RE.search` for cfel.py: try the pattern at every
position left to right. -/
def cfelSearch : List Char → Option (List Char)
  | [] => none
  | c :: rest =>
    match cfelMatchAt (c :: rest) with
    | some g => some g
    | none => cfelSearch rest

/-- cfel.py `parse_price`: the leftmost trailing-euro numeral, commas
normalised to dots, parsed as a float with `ValueError` mapped to none. -/
def parse_price (text : String) : Option ℚ :=
  match cfelSearch text.toList with
  | none => none
  | some g => pyFloat? (g.map commaToDot)

/-- One iteration of the cfel.py label-matching pass (lines 72-95) on a
single price cell, updating the (student, employee) assignment.  The
condition mirrors the source exactly, including the `gäste` clause that
is neutralised by its constant-false conjunct. -/
def classifyCell (st em : Option ℚ) (text : String) : Option ℚ × Option ℚ :=
  match parse_price text with
  | none => (st, em)
  | some p =>
    let lower := pyLower text.toList
    if hasSub lower "stud".toList || hasSub lower "studierende".toList ||
        hasSub lower "student".toList then
      (some p, em)
    else if hasSub lower "bedienst".toList || hasSub lower "bedienstete".toList ||
        hasSub lower "mitarbeit".toList || hasSub lower "bedienstete".toList ||
        (hasSub lower "gäste".toList && false) then
      (st, some p)
    else if hasSub lower "bedienstete".toList || hasSub lower "bedienstete".toList ||
        hasSub lower "bediensteten".toList || hasSub lower "bedienst".toList then
      (st, some p)
    else (st, em)

/-- The whole label-matching pass over the cell texts of one dish. -/
def classifyPass (cells : List String) : Option ℚ × Option ℚ :=
  cells.foldl (fun acc text => classifyCell acc.1 acc.2 text) (none, none)

/-- One extracted dish record as `format_menus` consumes it. -/
structure MenuItem where
  headline : String
  student_price : Option ℚ
  employee_price : Option ℚ
deriving DecidableEq

/-- Price-string composition of cfel.py `format_menus` (lines 129-136). -/
def priceString (sp ep : Option ℚ) : String :=
  match sp, ep with
  | some s, some e => fmt2 s ++ "/" ++ fmt2 e ++ "€"
  | some s, none => fmt2 s ++ "€"
  | none, some e => fmt2 e ++ "€"
  | none, none => "N/A"

/-- One rendered line of `format_menus` for the entry at position `idx`. -/
def menuLine (specialFirst : Bool) (startIndex idx : Nat) (item : MenuItem) : String :=
  (if specialFirst && idx == startIndex then "Special Menu" else "Menu " ++ toString idx) ++
    " " ++ priceString item.student_price item.employee_price ++ ": " ++
    (⟨rstripP (fun c => c == '.') (stripL item.headline.toList)⟩ : String) ++ "."

/-- The enumerate loop of `format_menus`. -/
def formatGo (specialFirst : Bool) (startIndex : Nat) : Nat → List MenuItem → List String
  | _, [] => []
  | idx, item :: rest =>
    menuLine specialFirst startIndex idx item :: formatGo specialFirst startIndex (idx + 1) rest

/-- cfel.py `format_menus`: number the entries from `start_index`, render
each line, join with single newlines. -/
def format_menus (meals : List MenuItem) (special_first : Bool) (start_index : Nat) : String :=
  String.intercalate "\n" (formatGo special_first start_index start_index meals)

/-! ## cfel.py: clean_text

The four substitution passes of `clean_text` are embedded as structural
scanners with the exact non-overlapping leftmost-match semantics of
`re.sub`.  Their equivalence with CPython `re` was checked exhaustively
on small alphabets.
-/

/-- Prepend a character to the first group of a split. -/
def consHead (c : Char) : List (List Char) → List (List Char)
  | g :: gs => (c :: g) :: gs
  | [] => [[c]]

/-- Split at every `)` character; the substitution of
`paren_re = \s*\([^)]*\)` is then computed piecewise, because every
match of that pattern ends at a `)` and contains no other `)`. -/
def splitRp : List Char → List (List Char)
  | [] => [[]]
  | c :: t => if c == ')' then [] :: splitRp t else consHead c (splitRp t)

/-- Piecewise form of `paren_re.sub("", ·)`: every piece but the last is
followed by a `)` in the source text.  A piece containing `(` starts a
match at the maximal whitespace run before its first `(` (the `\s*` of
the pattern), which swallows the rest of the piece and that `)`;
otherwise the piece and its `)` pass through, and scanning resumes after
the `)` in either case. -/
def goP : List (List Char) → List Char
  | [] => []
  | [p] => p
  | p :: ps =>
    if p.contains '(' then
      rstripP isWs (p.takeWhile (fun c => !(c == '('))) ++ goP ps
    else
      p ++ ')' :: goP ps

/-- cfel.py line 18: `paren_re.sub("", s)` with
`paren_re = re.compile(r"\s*\([^)]*\)")`. -/
def parenSubL (s : List Char) : List Char := goP (splitRp s)

/-- Head-is-comma test. -/
def headComma : List Char → Bool
  | [] => false
  | c :: _ => c == ','

/-- Step of the `\s+,` substitution, scanning from the right: a
whitespace character directly before (the erased run in front of) a
comma is erased. -/
def wsCommaStep (c : Char) (acc : List Char) : List Char :=
  if isWs c && headComma acc then acc else c :: acc

/-- cfel.py line 20: `re.sub(r"\s+,", ",", s)` — every whitespace run
immediately before a comma is replaced by just the comma. -/
def wsCommaSubL (s : List Char) : List Char := s.foldr wsCommaStep []

/-- Head-is-whitespace test. -/
def headWs : List Char → Bool
  | c :: _ => isWs c
  | [] => false

/-- Step of the `\s{2,}` substitution, scanning from the right: a
whitespace character followed by more whitespace merges with it into a
single space. -/
def wsCollapseStep (c : Char) (acc : List Char) : List Char :=
  if isWs c && headWs acc then ' ' :: acc.tail else c :: acc

/-- cfel.py line 21: `re.sub(r"\s{2,}", " ", s)` — every run of two or
more whitespace characters becomes a single space; single whitespace
characters are left as they are. -/
def wsCollapseL (s : List Char) : List Char := s.foldr wsCollapseStep []

/-- State machine for `re.sub(r",\s*", ", ", s)`: after a comma (state
true) the pending whitespace run is consumed; every comma emits `", "`. -/
def csGo : Bool → List Char → List Char
  | _, [] => []
  | true, c :: t =>
    if isWs c then csGo true t
    else if c == ',' then ',' :: ' ' :: csGo true t
    else c :: csGo false t
  | false, c :: t =>
    if c == ',' then ',' :: ' ' :: csGo true t
    else c :: csGo false t

/-- cfel.py line 23: `re.sub(r",\s*", ", ", s)` — every comma together
with the whitespace after it becomes a comma and exactly one space. -/
def commaSpaceSubL (s : List Char) : List Char := csGo false s

/-- cfel.py `clean_text`: remove parenthesized blocks, fix whitespace
before commas, collapse whitespace runs, trim, normalize comma
spacing. -/
def cleanL (s : List Char) : List Char :=
  commaSpaceSubL (stripL (wsCollapseL (wsCommaSubL (parenSubL s))))

/-- String-level `clean_text`. -/
def clean_text (s : String) : String := String.mk (cleanL s.toList)

/-! ### Proof-support definitions for the clean_text analysis -/

/-- Interleave the pieces of `splitRp` back with `)`. -/
def joinRp : List (List Char) → List Char
  | [] => []
  | [p] => p
  | p :: ps => p ++ ')' :: joinRp ps

/-- Split at every comma. -/
def splitCm : List Char → List (List Char)
  | [] => [[]]
  | c :: t => if c == ',' then [] :: splitCm t else consHead c (splitCm t)

/-- Interleave with a bare comma. -/
def joinCm : List (List Char) → List Char
  | [] => []
  | [g] => g
  | g :: gs => g ++ ',' :: joinCm gs

/-- Interleave with comma-space. -/
def joinCS : List (List Char) → List Char
  | [] => []
  | [g] => g
  | g :: gs => g ++ ',' :: ' ' :: joinCS gs

/-- Absence of any `paren_re` match: no `(` stands anywhere before a
later `)`. -/
def noPairB : List Char → Bool
  | [] => true
  | c :: t => (if c == '(' then !t.contains ')' else true) && noPairB t

/-- No two adjacent whitespace characters. -/
def noDbl : List Char → Bool
  | c1 :: c2 :: t => !(isWs c1 && isWs c2) && noDbl (c2 :: t)
  | _ => true

/-- Parenthesis characters, the ones `paren_re` matching depends on. -/
def parenChar (c : Char) : Bool := c == '(' || c == ')'

/-- Per-piece normalisation between commas: collapse whitespace runs,
then trim both ends. -/
def compL (g : List Char) : List Char := rstripP isWs (lstripP isWs (wsCollapseL g))

/-! ## menu_post.py: the weekday-column PDF source -/

/-- Header-cell predicate of menu_post.py line 55: the cell is truthy
and its lowercase text contains the target weekday. -/
def headerCellMatches (target : String) (cell : Option String) : Bool :=
  match cell with
  | some s => !(s == "") && hasSub (pyLower s.toList) target.toList
  | none => false

/-- menu_post.py lines 54-57: index of the first matching header cell. -/
def headerIdx (header : List (Option String)) (target : String) : Option Nat :=
  header.findIdx? (headerCellMatches target)

/-- menu_post.py line 61: `max(header_idx - 1, 0)` over Python integers. -/
def content_col (h : ℤ) : ℤ := max (h - 1) 0

/-- Loop body of menu_post.py lines 64-71 for one row: `Except.ok none`
when the row is skipped (empty, or too short to hold the content
column), `Except.ok (some line)` when it contributes a line, and
`Except.error` for the `AttributeError` Python would raise on a `None`
content cell. -/
def rowLine (c : Nat) (row : List (Option String)) : Except String (Option String) :=
  match row with
  | [] => Except.ok none
  | r0 :: _ =>
    if row.length ≤ c then Except.ok none
    else
      let label := match r0 with
        | some s => if s == "" then [] else joinWith [' '] (pyWords s.toList)
        | none => []
      match row.getD c none with
      | none => Except.error "AttributeError"
      | some s =>
        let dish := joinWith [' '] (pyWords s.toList)
        if dish.isEmpty then Except.ok none
        else Except.ok (some ⟨if label.isEmpty then dish else label ++ ": ".toList ++ dish⟩)

/-- Accumulate the lines of the data rows, propagating the first error. -/
def rowLines (c : Nat) : List (List (Option String)) → Except String (List String)
  | [] => Except.ok []
  | row :: rest =>
    match rowLine c row with
    | Except.error e => Except.error e
    | Except.ok none => rowLines c rest
    | Except.ok (some l) =>
      match rowLines c rest with
      | Except.error e => Except.error e
      | Except.ok ls => Except.ok (l :: ls)

/-- menu_post.py `extract_menu_for_day` from the extracted table on
(lines 40-41 and 49-75): lowercase the target, fail on a missing table,
locate the weekday header cell or fail, read the content column
`max(h-1,0)` of the first three data rows, and fall back to the
no-entries sentinel text when no row produced a line. -/
def extract_menu_for_day (table : List (List (Option String))) (target_day : String) :
    Except String String :=
  let target : String := ⟨pyLower target_day.toList⟩
  match table with
  | [] => Except.error "Could not extract table from menu page"
  | header :: dataRows =>
    match headerIdx header target with
    | none => Except.error ("Could not find header for \x27" ++ target ++ "\x27")
    | some h =>
      match rowLines (content_col (h : ℤ)).toNat (dataRows.take 3) with
      | Except.error e => Except.error e
      | Except.ok [] => Except.ok ("No menu entries found for " ++ (⟨pyTitle target.toList⟩ : String))
      | Except.ok ls => Except.ok (String.intercalate "\n" ls)

/-! ## Helper lemmas -/

/-- Decidable equality for `Except`, so concrete runs of the embedded
fallible functions can be checked by `decide`. -/
instance {α β : Type} [DecidableEq α] [DecidableEq β] : DecidableEq (Except α β) := by
  intro a b
  cases a <;> cases b
  case error.error e f =>
    exact match decEq e f with
    | isTrue h => isTrue (by rw [h])
    | isFalse h => isFalse (by intro q; cases q; exact h rfl)
  case ok.ok e f =>
    exact match decEq e f with
    | isTrue h => isTrue (by rw [h])
    | isFalse h => isFalse (by intro q; cases q; exact h rfl)
  all_goals exact isFalse (by intro q; cases q)

/-- A prefix test against a pattern extended on the right entails the
prefix test against the original pattern. -/
theorem begWith_mono (a b s : List Char) (h : begWith (a ++ b) s = true) :
    begWith a s = true := by
  induction a generalizing s with
  | nil => rfl
  | cons c t ih =>
    cases s with
    | nil => simp [begWith] at h
    | cons d u =>
      simp only [List.cons_append, begWith, Bool.and_eq_true] at h ⊢
      exact ⟨h.1, ih u h.2⟩

/-- If a pattern extended on the right occurs as a substring, so does
the original pattern. -/
theorem hasSub_mono (s a b : List Char) (h : hasSub s (a ++ b) = true) :
    hasSub s a = true := by
  induction s with
  | nil =>
    simp only [hasSub, List.isEmpty_eq_true, List.append_eq_nil] at h ⊢
    exact h.1
  | cons c t ih =>
    simp only [hasSub, Bool.or_eq_true] at h ⊢
    cases h with
    | inl h => exact Or.inl (begWith_mono a b _ h)
    | inr h => exact Or.inr (ih h)

/-! ## Claim C1 -/

/-- C1: for the header list `["", "Main meal", "Menu 2"]` and the row
`["", "Spaghetti\n€5,00", "Salad\nP: 2g"]` the desy entry builder
produces exactly the two lines `"Menu 1 5.00€: Spaghetti"` and
`"Menu 2: Salad"`: the header starting with "main" (case-insensitive)
is relabeled "Menu 1", the price line becomes the 2-decimal price, the
nutrition line "P: 2g" is dropped, and the no-price fallback keeps
"Salad". -/
theorem c1_entry_builder_example :
    clean_menu_text [some "", some "Main meal", some "Menu 2"]
      [some "", some "Spaghetti\n€5,00", some "Salad\nP: 2g"] =
      Except.ok "Menu 1 5.00€: Spaghetti\nMenu 2: Salad" := by decide

/-! ## Claim C3 -/

/-- C3, counterexample: cfel.py's `parse_price` requires the numeral to
stand before the euro sign, so on `"€12.50 extra"` it returns none, not
12.50 as the claim states. -/
theorem c3_leading_euro_counterexample :
    parse_price "€12.50 extra" = none ∧ parse_price "€12.50 extra" ≠ some (mkRat 25 2) := by
  decide

/-- C3 amended: `parse_price` accepts the trailing-symbol comma-decimal
form (`"4,30 €"` yields 4.30) and returns none both on text without a
price and on the leading-symbol form `"€12.50 extra"`; the leading-symbol
dot-decimal form is handled by the desy price scanner instead, which
extracts 12.50 from that text. -/
theorem c3_parse_price_examples :
    parse_price "4,30 €" = some (mkRat 43 10) ∧
    parse_price "no price here" = none ∧
    parse_price "€12.50 extra" = none ∧
    (desyPriceSearch "€12.50 extra".toList).map (fun g => pyFloat? (g.map commaToDot)) =
      some (some (mkRat 25 2)) := by
  decide

/-! ## Claim C4 -/

/-- C4: the desy entry builder's price scan is not total in the way the
claim states: on a cell whose price line is `"€1.2.3"` the matched
numeral `1.2.3` fails float conversion and the uncaught `ValueError`
escapes `clean_menu_text` (desy.py line 36 has no try/except), instead
of the field being omitted. -/
theorem c4_malformed_numeral_error :
    clean_menu_text [some "Menu 2"] [some "Dish\n€1.2.3"] = Except.error "ValueError" := by
  decide

/-! ## Claim C2 -/

/-- C2, counterexample: a price cell that contains both "gäste" and the
employee keyword "bedienst" IS assigned to the employee bucket by the
classification pass, because the source's `"gäste" in lower and False`
conjunct is dead code; the claimed exclusion does not happen. -/
theorem c2_gaeste_counterexample :
    classifyCell none none "bedienst gäste 4,30 €" = (none, some (mkRat 43 10)) ∧
    hasSub (pyLower "bedienst gäste 4,30 €".toList) "gäste".toList = true := by
  decide

/-- C2 amended: for a price-bearing cell containing "gäste" and no
student keyword, the classification pass assigns the employee price
exactly when the cell contains "bedienst" or "mitarbeit" — the "gäste"
exclusion clause is neutralised by its constant-false conjunct and never
prevents the assignment; only a gäste cell without employee keywords is
left unassigned. -/
theorem c2_gaeste_not_excluded (st em : Option ℚ) (text : String) (p : ℚ)
    (hp : parse_price text = some p)
    (hg : hasSub (pyLower text.toList) "gäste".toList = true)
    (hstud : (hasSub (pyLower text.toList) "stud".toList ||
        hasSub (pyLower text.toList) "studierende".toList ||
        hasSub (pyLower text.toList) "student".toList) = false) :
    classifyCell st em text =
      (st, if hasSub (pyLower text.toList) "bedienst".toList ||
          hasSub (pyLower text.toList) "mitarbeit".toList then some p else em) := by
  have hete : hasSub (pyLower text.toList) "bedienstete".toList = true →
      hasSub (pyLower text.toList) "bedienst".toList = true := by
    intro h
    have : ("bedienstete".toList : List Char) = "bedienst".toList ++ "ete".toList := by decide
    rw [this] at h
    exact hasSub_mono _ _ _ h
  have heten : hasSub (pyLower text.toList) "bediensteten".toList = true →
      hasSub (pyLower text.toList) "bedienst".toList = true := by
    intro h
    have : ("bediensteten".toList : List Char) = "bedienst".toList ++ "eten".toList := by decide
    rw [this] at h
    exact hasSub_mono _ _ _ h
  unfold classifyCell
  rw [hp]
  simp only [hstud, Bool.false_eq_true, if_false, Bool.and_false, Bool.or_false]
  cases hbed : hasSub (pyLower text.toList) "bedienst".toList with
  | true =>
    simp [hbed]
  | false =>
    have h1 : hasSub (pyLower text.toList) "bedienstete".toList = false := by
      cases h : hasSub (pyLower text.toList) "bedienstete".toList with
      | true => rw [hete h] at hbed; cases hbed
      | false => rfl
    have h2 : hasSub (pyLower text.toList) "bediensteten".toList = false := by
      cases h : hasSub (pyLower text.toList) "bediensteten".toList with
      | true => rw [heten h] at hbed; cases hbed
      | false => rfl
    simp at h1 h2 hbed
    simp [hbed, h1, h2]
    split <;> rfl

/-- C2 witness: the amended theorem applied to the counterexample cell. -/
theorem c2_gaeste_not_excluded_witness :
    classifyCell none none "bedienst gäste 4,30 €" =
      (none, if hasSub (pyLower "bedienst gäste 4,30 €".toList) "bedienst".toList ||
          hasSub (pyLower "bedienst gäste 4,30 €".toList) "mitarbeit".toList then
        some (mkRat 43 10) else none) :=
  c2_gaeste_not_excluded none none "bedienst gäste 4,30 €" (mkRat 43 10)
    (by decide) (by decide) (by decide)

/-! ## Claim C6 -/

/-- Python `rstrip` expressed through `reverse` and `dropWhile`. -/
theorem rstripP_reverse (p : Char → Bool) (l : List Char) :
    rstripP p l = (l.reverse.dropWhile p).reverse := by
  induction l with
  | nil => rfl
  | cons c t ih =>
    simp only [rstripP, List.reverse_cons, List.dropWhile_append]
    cases hr : List.dropWhile p t.reverse with
    | nil =>
      rw [hr] at ih
      simp only [List.reverse_nil] at ih
      rw [ih]
      simp only [List.isEmpty_nil, if_true, List.dropWhile]
      cases hp : p c with
      | true => simp
      | false => simp
    | cons x xs =>
      rw [hr] at ih
      have hne : rstripP p t ≠ [] := by
        rw [ih]; simp
      cases hrs : rstripP p t with
      | nil => exact absurd hrs hne
      | cons y ys =>
        rw [hrs] at ih
        simp only [List.isEmpty_cons, if_false, Bool.false_eq_true, List.reverse_append,
          List.reverse_cons]
        simp at ih
        simp [ih]

/-- The enumerate loop of `format_menus` as an indexed map. -/
theorem formatGo_eq_mapIdx (sf : Bool) (si : Nat) (ms : List MenuItem) (idx : Nat) :
    formatGo sf si idx ms = ms.mapIdx (fun i item => menuLine sf si (idx + i) item) := by
  induction ms generalizing idx with
  | nil => rfl
  | cons m rest ih =>
    simp only [formatGo, List.mapIdx_cons, Nat.add_zero, ih (idx + 1)]
    have harg : (fun i item => menuLine sf si (idx + 1 + i) item) =
        (fun i item => menuLine sf si (idx + (i + 1)) item) := by
      funext i item
      have : idx + 1 + i = idx + (i + 1) := by omega
      rw [this]
    rw [harg]

/-- C6, counterexample: the formatter strips every trailing period of
the title, not exactly one, so a title ending in ".." comes out with a
single final period instead of keeping one of its own. -/
theorem c6_double_period_counterexample :
    format_menus [⟨"Soup..", none, none⟩] false 1 = "Menu 1 N/A: Soup." ∧
    "Menu 1 N/A: Soup." ≠ "Menu 1 N/A: Soup.." := by
  decide

/-- C6 amended: the formatter renders entry `i` (numbered from
`start_index`) as `"{label} {price_str}: {title}."` where the title is
whitespace-trimmed and then stripped of ALL its trailing periods before
the single final period is appended, and the lines are joined by single
newlines with no trailing newline. -/
theorem c6_formatter_shape (meals : List MenuItem) (sf : Bool) (si : Nat) :
    format_menus meals sf si = String.intercalate "\n" (meals.mapIdx fun i item =>
      (if sf && (si + i == si) then "Special Menu" else "Menu " ++ toString (si + i)) ++ " " ++
        priceString item.student_price item.employee_price ++ ": " ++
        String.mk ((((item.headline.toList.dropWhile isWs).reverse.dropWhile isWs).dropWhile
          (fun c => c == '.')).reverse) ++ ".") := by
  unfold format_menus
  have hfun : (fun (i : ℕ) (item : MenuItem) => menuLine sf si (si + i) item) =
      (fun (i : ℕ) (item : MenuItem) =>
        (if sf && (si + i == si) then "Special Menu" else "Menu " ++ toString (si + i)) ++ " " ++
          priceString item.student_price item.employee_price ++ ": " ++
          String.mk ((((item.headline.toList.dropWhile isWs).reverse.dropWhile isWs).dropWhile
            (fun c => c == '.')).reverse) ++ ".") := by
    funext i item
    unfold menuLine stripL lstripP
    rw [rstripP_reverse, rstripP_reverse, List.reverse_reverse]
  rw [formatGo_eq_mapIdx, hfun]

/-! ## Claim C7 -/

/-- C7: for weekday-keyed tables the selected content column is exactly
`max(h-1,0)` for header index `h`: on header
`["Day", "Mon Content", "Tue Content"]` with target "tue" the header
index is 2 and the content column 1 (so the whole extraction reads the
"Mon Content" column), and a leftmost header match (h = 0) maps to
itself. -/
theorem c7_content_column :
    headerIdx [some "Day", some "Mon Content", some "Tue Content"] "tue" = some 2 ∧
    content_col 2 = 1 ∧
    content_col 0 = 0 ∧
    extract_menu_for_day [[some "Day", some "Mon Content", some "Tue Content"],
      [some "Lbl", some "dishM", some "dishT"]] "tue" = Except.ok "Lbl: dishM" ∧
    extract_menu_for_day [[some "tue", some "x"], [some "A", some "B"]] "tue" =
      Except.ok "A: A" ∧
    (∀ h : ℤ, content_col h = max (h - 1) 0) :=
  ⟨by decide, by decide, by decide, by decide, by decide, fun h => rfl⟩

/-! ## Claim C8 -/

/-- C8: the date-keyed row locator returns the first row, scanning rows
top-to-bottom across all pages in source order, whose predicate finds
the date in some truthy cell (`List.find?` over the flattened pages),
and returns the empty row rather than an error when no row matches. -/
theorem c8_date_row_locator (tables : List (List (List (Option String)))) (d : String) :
    find_daily_menu tables d = ((tables.flatten).find? (rowHasDate d)).getD [] ∧
    ((tables.flatten).find? (rowHasDate d) = none → find_daily_menu tables d = []) := by
  have main : find_daily_menu tables d = ((tables.flatten).find? (rowHasDate d)).getD [] := by
    induction tables with
    | nil => rfl
    | cons page rest ih =>
      simp only [find_daily_menu, List.flatten_cons, List.find?_append]
      cases hp : page.find? (rowHasDate d) with
      | some r => simp
      | none => simp [ih]
  exact ⟨main, fun h => by rw [main, h]; rfl⟩

/-- C8 witness: on a table set with no matching row the locator returns
the empty row. -/
theorem c8_date_row_locator_witness :
    find_daily_menu [[[some "header", none], [some "02.01.2099 x"]]] "01.01.2099" = [] :=
  (c8_date_row_locator [[[some "header", none], [some "02.01.2099 x"]]] "01.01.2099").2
    (by decide)

/-! ## Claim C9 -/

/-- C9: when no header cell of a nonempty table contains the lowercased
target weekday, extraction fails with the explicit header-not-found
error, while a header match whose data rows produce no lines yields the
non-error no-menu-entries text. -/
theorem c9_header_error_vs_no_entries (table : List (List (Option String))) (target : String)
    (hidx : headerIdx table.headI (String.mk (pyLower target.toList)) = none)
    (hne : table ≠ []) :
    extract_menu_for_day table target =
      Except.error ("Could not find header for \x27" ++ String.mk (pyLower target.toList) ++ "\x27") ∧
    extract_menu_for_day [[some "monday tuesday wednesday thursday friday"]] "tuesday" =
      Except.ok "No menu entries found for Tuesday" := by
  refine ⟨?_, by decide⟩
  cases table with
  | nil => exact absurd rfl hne
  | cons hd rows =>
    simp only [List.headI] at hidx
    simp only [extract_menu_for_day]
    rw [hidx]

/-- C9 witness: the theorem applied to a concrete table with no
"tuesday" header cell. -/
theorem c9_header_error_vs_no_entries_witness :
    extract_menu_for_day [[some "monday stuff", none]] "Tuesday" =
      Except.error ("Could not find header for \x27" ++
        String.mk (pyLower "Tuesday".toList) ++ "\x27") ∧
    extract_menu_for_day [[some "monday tuesday wednesday thursday friday"]] "tuesday" =
      Except.ok "No menu entries found for Tuesday" :=
  c9_header_error_vs_no_entries [[some "monday stuff", none]] "Tuesday" (by decide)
    (by decide)

/-! ## Claim C10 -/

/-- C10: the weekday extraction reads only the header row and the three
rows after it — the result is unchanged when the table is truncated to
its first four rows — and a row no longer than the content column index
is skipped without error. -/
theorem c10_rows_window (table : List (List (Option String))) (target : String) :
    extract_menu_for_day table target = extract_menu_for_day (table.take 4) target ∧
    (∀ (c : Nat) (row : List (Option String)), row.length ≤ c →
      rowLine c row = Except.ok none) := by
  constructor
  · cases table with
    | nil => rfl
    | cons hd rows =>
      have h34 : (rows.take 3).take 3 = rows.take 3 := by
        simp [List.take_take]
      rw [List.take_succ_cons]
      simp only [extract_menu_for_day]
      rw [h34]
  · intro c row h
    cases row with
    | nil => rfl
    | cons r0 rs =>
      simp only [rowLine]
      rw [if_pos h]

/-- C10 witness: a fifth row with a dish does not change the result, and
a short row is skipped. -/
theorem c10_rows_window_witness :
    extract_menu_for_day [[some "tue"], [some "a"], [some "b"], [some "c"], [some "LATE DISH"]]
        "tue" =
      extract_menu_for_day ([[some "tue"], [some "a"], [some "b"], [some "c"],
        [some "LATE DISH"]].take 4) "tue" ∧
    rowLine 5 [some "x"] = Except.ok none :=
  ⟨(c10_rows_window [[some "tue"], [some "a"], [some "b"], [some "c"], [some "LATE DISH"]]
      "tue").1,
    (c10_rows_window [] "tue").2 5 [some "x"] (by decide)⟩

/-! ## Claim C5: idempotence of clean_text

The development characterises one full pass of the pipeline as a normal
form (pieces between commas, each collapse-and-trim normalised, joined
by comma-space) and shows a second pass reproduces it. -/

theorem splitRp_ne (s : List Char) : splitRp s ≠ [] := by
  cases s with
  | nil => simp [splitRp]
  | cons c t =>
    simp only [splitRp]
    split
    · simp
    · cases h : splitRp t with
      | nil => simp [consHead]
      | cons g gs => simp [consHead]

theorem joinRp_splitRp (s : List Char) : joinRp (splitRp s) = s := by
  induction s with
  | nil => rfl
  | cons c t ih =>
    simp only [splitRp]
    by_cases hc : c == ')'
    · rw [if_pos hc]
      cases h : splitRp t with
      | nil => exact absurd h (splitRp_ne t)
      | cons g gs =>
        rw [h] at ih
        simp at hc
        subst hc
        cases gs with
        | nil =>
          simp only [joinRp] at ih ⊢
          rw [ih]
          rfl
        | cons g2 gs2 =>
          simp only [joinRp] at ih ⊢
          rw [ih]
          simp
    · rw [if_neg hc]
      cases h : splitRp t with
      | nil => exact absurd h (splitRp_ne t)
      | cons g gs =>
        rw [h] at ih
        cases gs with
        | nil =>
          simp only [consHead, joinRp] at ih ⊢
          rw [ih]
        | cons g2 gs2 =>
          simp only [consHead, joinRp] at ih ⊢
          rw [List.cons_append, ih]

theorem splitRp_pieces (s : List Char) (g : List Char) (hg : g ∈ splitRp s) :
    ¬ (')' ∈ g) := by
  induction s generalizing g with
  | nil =>
    simp [splitRp] at hg
    subst hg
    simp
  | cons c t ih =>
    simp only [splitRp] at hg
    by_cases hc : c == ')'
    · rw [if_pos hc] at hg
      cases hg with
      | head => simp
      | tail _ hm => exact ih g hm
    · rw [if_neg hc] at hg
      cases h : splitRp t with
      | nil => exact absurd h (splitRp_ne t)
      | cons p ps =>
        rw [h, consHead] at hg
        cases hg with
        | head =>
          intro hmem
          cases hmem with
          | head => simp at hc
          | tail _ hm => exact ih p (h ▸ List.mem_cons_self p ps) hm
        | tail _ hm => exact ih g (h ▸ List.mem_cons_of_mem p hm)

theorem contains_iff (l : List Char) (a : Char) : l.contains a = true ↔ a ∈ l := by
  simp [List.contains, List.elem_iff]

theorem rstripP_sublist (p : Char → Bool) (l : List Char) : (rstripP p l).Sublist l := by
  induction l with
  | nil => simp [rstripP]
  | cons c t ih =>
    simp only [rstripP]
    cases h : rstripP p t with
    | nil =>
      show (if p c = true then [] else [c]).Sublist (c :: t)
      by_cases hpc : p c = true
      · rw [if_pos hpc]
        exact List.nil_sublist _
      · rw [if_neg hpc]
        exact List.Sublist.cons₂ c (List.nil_sublist t)
    | cons r rs =>
      rw [h] at ih
      exact List.Sublist.cons₂ c ih

theorem splitRp_single_of_no_rp (t : List Char) (h : ¬ ')' ∈ t) : splitRp t = [t] := by
  induction t with
  | nil => rfl
  | cons c u ih =>
    simp only [splitRp]
    have hc : ¬ (c == ')') = true := by
      simp only [beq_iff_eq]
      intro hh
      exact h (hh ▸ List.mem_cons_self c u)
    rw [if_neg hc, ih (fun hm => h (List.mem_cons_of_mem c hm)), consHead]

theorem noPairB_split (s : List Char) (h : noPairB s = true) :
    ∀ p ∈ (splitRp s).dropLast, ¬ '(' ∈ p := by
  induction s with
  | nil =>
    intro p hp
    simp [splitRp] at hp
  | cons c t ih =>
    simp only [noPairB, Bool.and_eq_true] at h
    intro p hp
    simp only [splitRp] at hp
    by_cases hc : c == ')'
    · rw [if_pos hc] at hp
      cases hg : splitRp t with
      | nil => exact absurd hg (splitRp_ne t)
      | cons g gs =>
        rw [hg, List.dropLast_cons₂] at hp
        cases hp with
        | head => simp
        | tail _ hm => exact ih h.2 p (hg ▸ hm)
    · rw [if_neg hc] at hp
      cases hg : splitRp t with
      | nil => exact absurd hg (splitRp_ne t)
      | cons g gs =>
        rw [hg, consHead] at hp
        cases gs with
        | nil => simp at hp
        | cons g2 gs2 =>
          have hrt : ')' ∈ t := by
            by_contra hno
            rw [splitRp_single_of_no_rp t hno] at hg
            cases hg
          have hcne : ¬ (c = '(') := by
            intro hceq
            subst hceq
            simp only [beq_self_eq_true, if_true, Bool.not_eq_true'] at h
            have hq := (contains_iff t ')').mpr hrt
            rw [h.1] at hq
            exact Bool.false_ne_true hq
          rw [List.dropLast_cons₂] at hp
          cases hp with
          | head =>
            intro hm
            cases hm with
            | head => exact hcne rfl
            | tail _ hm2 =>
              exact ih h.2 g (by rw [hg, List.dropLast_cons₂]; exact List.mem_cons_self _ _) hm2
          | tail _ hm =>
            exact ih h.2 p (by rw [hg, List.dropLast_cons₂]; exact List.mem_cons_of_mem _ hm)

theorem noPairB_of_no_rp (t : List Char) (h : ¬ ')' ∈ t) : noPairB t = true := by
  induction t with
  | nil => rfl
  | cons c u ih =>
    simp only [noPairB, Bool.and_eq_true]
    refine ⟨?_, ih (fun hm => h (List.mem_cons_of_mem c hm))⟩
    by_cases hc : (c == '(') = true
    · rw [if_pos hc]
      simp only [Bool.not_eq_true']
      cases hcu : u.contains ')'
      · rfl
      · exact absurd (List.mem_cons_of_mem c ((contains_iff u ')').mp hcu)) h
    · rw [if_neg hc]

theorem noPairB_append_lpfree (A X : List Char) (hA : ¬ '(' ∈ A) (hX : noPairB X = true) :
    noPairB (A ++ X) = true := by
  induction A with
  | nil => exact hX
  | cons a A' ih =>
    simp only [List.cons_append, noPairB, Bool.and_eq_true]
    constructor
    · have hne : ¬ (a == '(') = true := by
        simp only [beq_iff_eq]
        intro he
        exact hA (he ▸ List.mem_cons_self a A')
      rw [if_neg hne]
    · exact ih (fun hm => hA (List.mem_cons_of_mem a hm))

theorem goP_eq_joinRp (gs : List (List Char)) (h : ∀ p ∈ gs.dropLast, ¬ '(' ∈ p) :
    goP gs = joinRp gs := by
  induction gs with
  | nil => rfl
  | cons p ps ih =>
    cases ps with
    | nil => rfl
    | cons p2 ps2 =>
      simp only [goP, joinRp]
      have hp : ¬ '(' ∈ p :=
        h p (by rw [List.dropLast_cons₂]; exact List.mem_cons_self _ _)
      rw [if_neg (fun q => hp ((contains_iff p '(').mp q))]
      rw [ih (fun q hq => h q (by rw [List.dropLast_cons₂]; exact List.mem_cons_of_mem _ hq))]

/-- On a string with no `paren_re` match the substitution is the
identity. -/
theorem parenSub_id (s : List Char) (h : noPairB s = true) : parenSubL s = s := by
  unfold parenSubL
  rw [goP_eq_joinRp _ (noPairB_split s h), joinRp_splitRp]

theorem noPairB_goP (gs : List (List Char)) (h : ∀ p ∈ gs, ¬ ')' ∈ p) :
    noPairB (goP gs) = true := by
  induction gs with
  | nil => rfl
  | cons p ps ih =>
    cases ps with
    | nil => exact noPairB_of_no_rp p (h p (List.mem_cons_self _ _))
    | cons p2 ps2 =>
      simp only [goP]
      have hrest : ∀ q ∈ p2 :: ps2, ¬ ')' ∈ q := fun q hq => h q (List.mem_cons_of_mem _ hq)
      by_cases hlp : p.contains '(' = true
      · rw [if_pos hlp]
        apply noPairB_append_lpfree
        · intro hm
          have hm2 := List.Sublist.mem hm (rstripP_sublist isWs _)
          have := List.mem_takeWhile_imp hm2
          simp at this
        · exact ih hrest
      · rw [if_neg hlp]
        apply noPairB_append_lpfree
        · intro hm
          exact hlp ((contains_iff p '(').mpr hm)
        · simp only [noPairB]
          rw [if_neg (by decide)]
          simp [ih hrest]

/-- The output of the paren substitution has no match left. -/
theorem parenSub_noPair (s : List Char) : noPairB (parenSubL s) = true :=
  noPairB_goP _ (fun p hp => splitRp_pieces s p hp)

theorem ws_not_paren (c : Char) (h : isWs c = true) : parenChar c = false := by
  simp only [isWs, Bool.or_eq_true, beq_iff_eq] at h
  rcases h with ((((h | h) | h) | h) | h) | h <;> subst h <;> rfl

theorem contains_rp_filter (t : List Char) :
    t.contains ')' = (t.filter parenChar).contains ')' := by
  induction t with
  | nil => rfl
  | cons c u ih =>
    rw [List.filter_cons]
    by_cases hc : parenChar c = true
    · rw [if_pos hc]
      simp only [List.contains_cons, ih]
    · rw [if_neg hc]
      have hcr : (')' == c) = false := by
        rw [beq_eq_false_iff_ne]
        intro he
        subst he
        exact hc rfl
      simp only [List.contains_cons, hcr, Bool.false_or]
      exact ih

theorem noPairB_filter (s : List Char) : noPairB s = noPairB (s.filter parenChar) := by
  induction s with
  | nil => rfl
  | cons c t ih =>
    rw [List.filter_cons]
    by_cases hc : parenChar c = true
    · rw [if_pos hc]
      simp only [noPairB, contains_rp_filter t, ih]
    · rw [if_neg hc]
      have hlp : (c == '(') = false := by
        rw [beq_eq_false_iff_ne]
        intro he
        subst he
        exact hc rfl
      simp only [noPairB, hlp, Bool.false_eq_true, if_false, Bool.true_and]
      exact ih

theorem filter_wsCommaSub (s : List Char) :
    (wsCommaSubL s).filter parenChar = s.filter parenChar := by
  induction s with
  | nil => rfl
  | cons c t ih =>
    have hstep : wsCommaSubL (c :: t) = wsCommaStep c (wsCommaSubL t) := rfl
    rw [hstep]
    unfold wsCommaStep
    by_cases hcond : (isWs c && headComma (wsCommaSubL t)) = true
    · rw [if_pos hcond]
      rw [List.filter_cons, if_neg]
      · exact ih
      · rw [ws_not_paren c (Bool.and_eq_true .. |>.mp hcond).1]
        simp
    · rw [if_neg hcond]
      rw [List.filter_cons, List.filter_cons, ih]

theorem filter_wsCollapse (s : List Char) :
    (wsCollapseL s).filter parenChar = s.filter parenChar := by
  induction s with
  | nil => rfl
  | cons c t ih =>
    have hstep : wsCollapseL (c :: t) = wsCollapseStep c (wsCollapseL t) := rfl
    rw [hstep]
    unfold wsCollapseStep
    by_cases hcond : (isWs c && headWs (wsCollapseL t)) = true
    · rw [if_pos hcond]
      have hws := (Bool.and_eq_true .. |>.mp hcond).1
      have hhead := (Bool.and_eq_true .. |>.mp hcond).2
      cases hX : wsCollapseL t with
      | nil => rw [hX] at hhead; cases hhead
      | cons x xs =>
        rw [hX] at hhead ih
        simp only [headWs] at hhead
        simp only [List.tail_cons]
        rw [List.filter_cons, if_neg (by rw [ws_not_paren ' ' rfl]; simp)]
        rw [List.filter_cons, if_neg (by rw [ws_not_paren c hws]; simp)]
        rw [List.filter_cons, if_neg (by rw [ws_not_paren x hhead]; simp)] at ih
        exact ih
    · rw [if_neg hcond]
      rw [List.filter_cons, List.filter_cons, ih]

theorem filter_lstrip (s : List Char) :
    ((lstripP isWs s).filter parenChar) = s.filter parenChar := by
  induction s with
  | nil => rfl
  | cons c t ih =>
    unfold lstripP at ih ⊢
    rw [List.dropWhile_cons]
    by_cases hc : isWs c = true
    · rw [if_pos hc, ih, List.filter_cons, if_neg (by rw [ws_not_paren c hc]; simp)]
    · rw [if_neg hc]

theorem filter_rstrip (s : List Char) :
    ((rstripP isWs s).filter parenChar) = s.filter parenChar := by
  induction s with
  | nil => rfl
  | cons c t ih =>
    cases hX : rstripP isWs t with
    | nil =>
      have hr : rstripP isWs (c :: t) = if isWs c = true then [] else [c] := by
        simp only [rstripP, hX]
      rw [hX] at ih
      simp only [List.filter_nil] at ih
      rw [hr]
      by_cases hc : isWs c = true
      · rw [if_pos hc, List.filter_cons, if_neg (by rw [ws_not_paren c hc]; simp), ← ih,
          List.filter_nil]
      · rw [if_neg hc, show (c :: t) = [c] ++ t by rfl, List.filter_append, ← ih,
          List.append_nil]
    | cons r rs =>
      have hr : rstripP isWs (c :: t) = c :: r :: rs := by
        simp only [rstripP, hX]
      rw [hX] at ih
      rw [hr, show (c :: r :: rs) = [c] ++ (r :: rs) by rfl,
        show (c :: t) = [c] ++ t by rfl, List.filter_append, List.filter_append, ih]

theorem filter_csGo (b : Bool) (s : List Char) :
    (csGo b s).filter parenChar = s.filter parenChar := by
  induction s generalizing b with
  | nil => cases b <;> rfl
  | cons c t ih =>
    cases b with
    | true =>
      simp only [csGo]
      by_cases hws : isWs c = true
      · rw [if_pos hws, ih true, List.filter_cons, if_neg (by rw [ws_not_paren c hws]; simp)]
      · rw [if_neg hws]
        by_cases hcm : (c == ',') = true
        · rw [if_pos hcm]
          have hc : c = ',' := by simpa using hcm
          subst hc
          rw [List.filter_cons, if_neg (by decide), List.filter_cons, if_neg (by decide)]
          rw [List.filter_cons, if_neg (by decide)]
          exact ih true
        · rw [if_neg hcm]
          rw [List.filter_cons, List.filter_cons, ih false]
    | false =>
      simp only [csGo]
      by_cases hcm : (c == ',') = true
      · rw [if_pos hcm]
        have hc : c = ',' := by simpa using hcm
        subst hc
        rw [List.filter_cons, if_neg (by decide), List.filter_cons, if_neg (by decide)]
        rw [List.filter_cons, if_neg (by decide)]
        exact ih true
      · rw [if_neg hcm]
        rw [List.filter_cons, List.filter_cons, ih false]

theorem rstrip_cons_of_nil (p : Char → Bool) (c : Char) (t : List Char)
    (h : rstripP p t = []) : rstripP p (c :: t) = if p c = true then [] else [c] := by
  simp only [rstripP, h]

theorem rstrip_cons_of_ne (p : Char → Bool) (c : Char) (t r : List Char) (x : Char)
    (h : rstripP p t = x :: r) : rstripP p (c :: t) = c :: x :: r := by
  simp only [rstripP, h]

theorem rstripP_eq_nil_iff (p : Char → Bool) (s : List Char) :
    rstripP p s = [] ↔ s.all p = true := by
  induction s with
  | nil => simp [rstripP]
  | cons c t ih =>
    cases hX : rstripP p t with
    | nil =>
      rw [rstrip_cons_of_nil p c t hX, List.all_cons]
      have hall := ih.mp hX
      by_cases hc : p c = true
      · simp [hc, hall]
      · simp [hc]
    | cons r rs =>
      rw [rstrip_cons_of_ne p c t rs r hX, List.all_cons]
      constructor
      · intro h
        cases h
      · intro h
        have hall : t.all p = true := (Bool.and_eq_true .. |>.mp h).2
        rw [ih.mpr hall] at hX
        cases hX

theorem rstrip_head (p : Char → Bool) (c x : Char) (t xs : List Char)
    (h : rstripP p (c :: t) = x :: xs) : x = c := by
  cases hX : rstripP p t with
  | nil =>
    rw [rstrip_cons_of_nil p c t hX] at h
    by_cases hc : p c = true
    · rw [if_pos hc] at h
      cases h
    · rw [if_neg hc] at h
      cases h
      rfl
  | cons r rs =>
    rw [rstrip_cons_of_ne p c t rs r hX] at h
    cases h
    rfl

theorem dropWhile_idem (p : Char → Bool) (l : List Char) :
    (l.dropWhile p).dropWhile p = l.dropWhile p := by
  induction l with
  | nil => rfl
  | cons c t ih =>
    rw [List.dropWhile_cons]
    by_cases hc : p c = true
    · rw [if_pos hc]
      exact ih
    · rw [if_neg hc, List.dropWhile_cons, if_neg hc]

theorem rstrip_idem (p : Char → Bool) (l : List Char) :
    rstripP p (rstripP p l) = rstripP p l := by
  rw [rstripP_reverse, rstripP_reverse, List.reverse_reverse, dropWhile_idem]

theorem lstrip_rstrip_comm (s : List Char) :
    lstripP isWs (rstripP isWs s) = rstripP isWs (lstripP isWs s) := by
  induction s with
  | nil => rfl
  | cons c t ih =>
    by_cases hc : isWs c = true
    · cases hX : rstripP isWs t with
      | nil =>
        rw [rstrip_cons_of_nil isWs c t hX, if_pos hc]
        have hall : t.all isWs = true := (rstripP_eq_nil_iff isWs t).mp hX
        unfold lstripP
        rw [List.dropWhile_cons, if_pos hc]
        have hnil : rstripP isWs (t.dropWhile isWs) = [] := by
          rw [rstripP_eq_nil_iff]
          exact List.all_eq_true.mpr fun x hx =>
            List.all_eq_true.mp hall x (List.Sublist.mem hx (List.dropWhile_sublist _))
        rw [hnil]
        rfl
      | cons r rs =>
        unfold lstripP at ih ⊢
        rw [List.dropWhile_cons, if_pos hc]
        rw [rstrip_cons_of_ne isWs c t rs r hX]
        rw [List.dropWhile_cons, if_pos hc, ← hX]
        exact ih
    · unfold lstripP
      rw [List.dropWhile_cons, if_neg hc]
      cases hX : rstripP isWs t with
      | nil =>
        rw [rstrip_cons_of_nil isWs c t hX, if_neg hc, List.dropWhile_cons, if_neg hc]
      | cons r rs =>
        rw [rstrip_cons_of_ne isWs c t rs r hX, List.dropWhile_cons, if_neg hc]

theorem wsCollapse_cons (c : Char) (t : List Char) :
    wsCollapseL (c :: t) = wsCollapseStep c (wsCollapseL t) := rfl

theorem noDbl_tail (c : Char) (t : List Char) (h : noDbl (c :: t) = true) :
    noDbl t = true := by
  cases t with
  | nil => rfl
  | cons x xs => exact (Bool.and_eq_true .. |>.mp h).2

theorem collapse_headWs (s : List Char) : headWs (wsCollapseL s) = headWs s := by
  cases s with
  | nil => rfl
  | cons c t =>
    rw [wsCollapse_cons]
    unfold wsCollapseStep
    by_cases hcond : (isWs c && headWs (wsCollapseL t)) = true
    · rw [if_pos hcond]
      have hws := (Bool.and_eq_true .. |>.mp hcond).1
      simp only [headWs, hws]
      rfl
    · rw [if_neg hcond]
      simp only [headWs]

theorem collapse_noDbl (s : List Char) : noDbl (wsCollapseL s) = true := by
  induction s with
  | nil => rfl
  | cons c t ih =>
    rw [wsCollapse_cons]
    unfold wsCollapseStep
    by_cases hcond : (isWs c && headWs (wsCollapseL t)) = true
    · rw [if_pos hcond]
      have hhead := (Bool.and_eq_true .. |>.mp hcond).2
      cases hX : wsCollapseL t with
      | nil => rw [hX] at hhead; cases hhead
      | cons x xs =>
        rw [hX] at hhead ih
        simp only [headWs] at hhead
        simp only [List.tail_cons]
        cases xs with
        | nil => rfl
        | cons y ys =>
          have h1 := (Bool.and_eq_true .. |>.mp ih).1
          have h2 := (Bool.and_eq_true .. |>.mp ih).2
          rw [hhead] at h1
          simp only [Bool.true_and, Bool.not_eq_true'] at h1
          simp only [noDbl, Bool.and_eq_true]
          exact ⟨by simp [h1], h2⟩
    · rw [if_neg hcond]
      cases hX : wsCollapseL t with
      | nil => rfl
      | cons x xs =>
        rw [hX] at ih
        simp only [noDbl, Bool.and_eq_true]
        refine ⟨?_, ih⟩
        by_cases hc : isWs c = true
        · have hx : isWs x = false := by
            cases hx : isWs x
            · rfl
            · exfalso
              apply hcond
              rw [hX]
              simp only [headWs, hx, hc]
              rfl
          simp [hx]
        · simp only [Bool.not_eq_true'] at hc
          simp [hc]

theorem collapse_id (s : List Char) (h : noDbl s = true) : wsCollapseL s = s := by
  induction s with
  | nil => rfl
  | cons c t ih =>
    rw [wsCollapse_cons, ih (noDbl_tail c t h)]
    unfold wsCollapseStep
    rw [if_neg]
    intro hcond
    have hws := (Bool.and_eq_true .. |>.mp hcond).1
    have hhead := (Bool.and_eq_true .. |>.mp hcond).2
    cases t with
    | nil => cases hhead
    | cons x xs =>
      simp only [headWs] at hhead
      have := (Bool.and_eq_true .. |>.mp h).1
      rw [hws, hhead] at this
      cases this

theorem collapse_all_ws (s : List Char) (h : s.all isWs = true) :
    (wsCollapseL s).all isWs = true := by
  induction s with
  | nil => rfl
  | cons c t ih =>
    have hc := (Bool.and_eq_true .. |>.mp h).1
    have ht := ih (Bool.and_eq_true .. |>.mp h).2
    rw [wsCollapse_cons]
    unfold wsCollapseStep
    by_cases hcond : (isWs c && headWs (wsCollapseL t)) = true
    · rw [if_pos hcond]
      cases hX : wsCollapseL t with
      | nil => rfl
      | cons x xs =>
        rw [hX] at ht
        simp only [List.tail_cons, List.all_cons, Bool.and_eq_true]
        exact ⟨rfl, (Bool.and_eq_true .. |>.mp ht).2⟩
    · rw [if_neg hcond]
      simp only [List.all_cons, Bool.and_eq_true]
      exact ⟨hc, ht⟩

theorem collapse_all_ws_rev (s : List Char) (h : (wsCollapseL s).all isWs = true) :
    s.all isWs = true := by
  induction s with
  | nil => rfl
  | cons c t ih =>
    rw [wsCollapse_cons] at h
    unfold wsCollapseStep at h
    by_cases hcond : (isWs c && headWs (wsCollapseL t)) = true
    · rw [if_pos hcond] at h
      have hws := (Bool.and_eq_true .. |>.mp hcond).1
      have hhead := (Bool.and_eq_true .. |>.mp hcond).2
      cases hX : wsCollapseL t with
      | nil => rw [hX] at hhead; cases hhead
      | cons x xs =>
        rw [hX] at hhead h
        simp only [headWs] at hhead
        simp only [List.tail_cons] at h
        have hxall : (x :: xs).all isWs = true := by
          simp only [List.all_cons, Bool.and_eq_true]
          exact ⟨hhead, (Bool.and_eq_true .. |>.mp h).2⟩
        rw [List.all_cons, hws, Bool.true_and]
        exact ih (hX ▸ hxall)
    · rw [if_neg hcond] at h
      rw [List.all_cons, (Bool.and_eq_true .. |>.mp h).1, Bool.true_and]
      exact ih (Bool.and_eq_true .. |>.mp h).2

theorem collapse_rstrip_comm (g : List Char) :
    wsCollapseL (rstripP isWs g) = rstripP isWs (wsCollapseL g) := by
  induction g with
  | nil => rfl
  | cons c t ih =>
    cases hX : rstripP isWs t with
    | nil =>
      have hall : t.all isWs = true := (rstripP_eq_nil_iff isWs t).mp hX
      by_cases hc : isWs c = true
      · rw [rstrip_cons_of_nil isWs c t hX, if_pos hc]
        have hcall : (c :: t).all isWs = true := by
          rw [List.all_cons, hc, Bool.true_and]
          exact hall
        rw [(rstripP_eq_nil_iff isWs _).mpr (collapse_all_ws _ hcall)]
        rfl
      · rw [rstrip_cons_of_nil isWs c t hX, if_neg hc]
        have hcoll_nil : rstripP isWs (wsCollapseL t) = [] :=
          (rstripP_eq_nil_iff isWs _).mpr (collapse_all_ws _ hall)
        have hL : wsCollapseL [c] = [c] := by
          rw [wsCollapse_cons, show wsCollapseL ([] : List Char) = [] from rfl]
          unfold wsCollapseStep
          rw [show headWs ([] : List Char) = false from rfl, Bool.and_false]
          simp
        have hR : wsCollapseL (c :: t) = c :: wsCollapseL t := by
          rw [wsCollapse_cons]
          unfold wsCollapseStep
          rw [if_neg (by simp only [Bool.and_eq_true]; intro hq; exact hc hq.1)]
        rw [hL, hR, rstrip_cons_of_nil isWs c _ hcoll_nil, if_neg hc]
    | cons r rs =>
      have hnall : ¬ t.all isWs = true := by
        intro hall
        rw [(rstripP_eq_nil_iff isWs t).mpr hall] at hX
        cases hX
      have hcoll_ne : rstripP isWs (wsCollapseL t) ≠ [] := by
        intro hnil
        exact hnall (collapse_all_ws_rev t ((rstripP_eq_nil_iff isWs _).mp hnil))
      rw [rstrip_cons_of_ne isWs c t rs r hX]
      rw [hX] at ih
      rw [wsCollapse_cons, ih, wsCollapse_cons]
      unfold wsCollapseStep
      have hhead_eq : headWs (rstripP isWs (wsCollapseL t)) = headWs (wsCollapseL t) := by
        cases hY : wsCollapseL t with
        | nil => rw [hY] at hcoll_ne; exact absurd rfl hcoll_ne
        | cons y ys =>
          rw [hY] at hcoll_ne
          cases hZ : rstripP isWs (y :: ys) with
          | nil => exact absurd hZ hcoll_ne
          | cons z zs =>
            have hzy := rstrip_head isWs y z ys zs hZ
            subst hzy
            simp [headWs]
      by_cases hcond : (isWs c && headWs (wsCollapseL t)) = true
      · rw [if_pos (by rw [hhead_eq]; exact hcond), if_pos hcond]
        have hhead := (Bool.and_eq_true .. |>.mp hcond).2
        cases hY : wsCollapseL t with
        | nil => rw [hY] at hhead; cases hhead
        | cons y ys =>
          rw [hY] at hhead hcoll_ne
          simp only [headWs] at hhead
          simp only [List.tail_cons]
          have hys_ne : rstripP isWs ys ≠ [] := by
            intro hnil
            apply hcoll_ne
            rw [rstripP_eq_nil_iff, List.all_cons, hhead, Bool.true_and]
            exact (rstripP_eq_nil_iff isWs ys).mp hnil
          cases hZ : rstripP isWs ys with
          | nil => exact absurd hZ hys_ne
          | cons z zs =>
            rw [rstrip_cons_of_ne isWs y ys zs z hZ, rstrip_cons_of_ne isWs ' ' ys zs z hZ]
            simp
      · rw [if_neg (by rw [hhead_eq]; exact hcond), if_neg hcond]
        cases hZ : rstripP isWs (wsCollapseL t) with
        | nil => exact absurd hZ hcoll_ne
        | cons z zs =>
          rw [rstrip_cons_of_ne isWs c _ zs z hZ]

theorem wsCommaSub_cons (c : Char) (t : List Char) :
    wsCommaSubL (c :: t) = wsCommaStep c (wsCommaSubL t) := rfl

theorem wsCommaSub_id (l : List Char) (h : ¬ ',' ∈ l) : wsCommaSubL l = l := by
  induction l with
  | nil => rfl
  | cons c t ih =>
    rw [wsCommaSub_cons, ih (fun hm => h (List.mem_cons_of_mem c hm))]
    unfold wsCommaStep
    rw [if_neg]
    simp only [Bool.and_eq_true]
    intro hq
    cases t with
    | nil => cases hq.2
    | cons x xs =>
      simp only [headComma, beq_iff_eq] at hq
      exact h (hq.2 ▸ List.mem_cons_of_mem c (List.mem_cons_self x xs))

theorem wsCommaSub_decomp (l r : List Char) (h : ¬ ',' ∈ l) :
    wsCommaSubL (l ++ ',' :: r) = rstripP isWs l ++ ',' :: wsCommaSubL r := by
  induction l with
  | nil =>
    rw [List.nil_append, wsCommaSub_cons]
    unfold wsCommaStep
    rw [if_neg (by simp [isWs])]
    rfl
  | cons c l2 ih =>
    have hl2 : ¬ ',' ∈ l2 := fun hm => h (List.mem_cons_of_mem c hm)
    rw [List.cons_append, wsCommaSub_cons, ih hl2]
    unfold wsCommaStep
    cases hR : rstripP isWs l2 with
    | nil =>
      simp only [List.nil_append]
      rw [show headComma (',' :: wsCommaSubL r) = true from rfl]
      by_cases hc : isWs c = true
      · rw [if_pos (by rw [hc]; rfl)]
        rw [rstrip_cons_of_nil isWs c l2 hR, if_pos hc, List.nil_append]
      · rw [if_neg (by rw [Bool.and_eq_true]; intro hq; exact hc hq.1)]
        rw [rstrip_cons_of_nil isWs c l2 hR, if_neg hc]
        rfl
    | cons x xs =>
      have hx : ¬ (x = ',') := by
        intro he
        apply hl2
        rw [← he] at hl2 ⊢
        exact List.Sublist.mem (hR ▸ List.mem_cons_self x xs) (rstripP_sublist isWs l2)
      simp only [List.cons_append]
      rw [show headComma (x :: (xs ++ ',' :: wsCommaSubL r)) = (x == ',') from rfl,
        (beq_eq_false_iff_ne ..).mpr hx, Bool.and_false]
      rw [if_neg (by simp)]
      rw [rstrip_cons_of_ne isWs c l2 xs x hR, List.cons_append, List.cons_append]

theorem collapse_distrib (m : Char) (a b : List Char) (hm : isWs m = false) :
    wsCollapseL (a ++ m :: b) = wsCollapseL a ++ m :: wsCollapseL b := by
  induction a with
  | nil =>
    rw [List.nil_append, wsCollapse_cons]
    unfold wsCollapseStep
    rw [if_neg (by rw [hm]; simp)]
    rfl
  | cons c a2 ih =>
    rw [List.cons_append, wsCollapse_cons, ih, wsCollapse_cons]
    unfold wsCollapseStep
    cases hK : wsCollapseL a2 with
    | nil =>
      simp only [List.nil_append]
      rw [show headWs (m :: wsCollapseL b) = isWs m from rfl, hm,
        show headWs ([] : List Char) = false from rfl, Bool.and_false]
      simp
    | cons y ys =>
      simp only [List.cons_append]
      rw [show headWs (y :: (ys ++ m :: wsCollapseL b)) = isWs y from rfl,
        show headWs (y :: ys) = isWs y from rfl]
      by_cases hcond : (isWs c && isWs y) = true
      · rw [if_pos hcond, if_pos hcond]
        simp
      · rw [if_neg hcond, if_neg hcond]
        simp

theorem lstrip_decomp (m : Char) (a b : List Char) (hm : isWs m = false) :
    lstripP isWs (a ++ m :: b) = lstripP isWs a ++ m :: b := by
  induction a with
  | nil =>
    unfold lstripP
    rw [List.nil_append, List.dropWhile_cons, if_neg (by rw [hm]; simp), List.dropWhile_nil,
      List.nil_append]
  | cons c a2 ih =>
    unfold lstripP at ih ⊢
    rw [List.cons_append, List.dropWhile_cons, List.dropWhile_cons]
    by_cases hc : isWs c = true
    · rw [if_pos hc, if_pos hc, ih]
    · rw [if_neg hc, if_neg hc, List.cons_append]

theorem rstrip_decomp (m : Char) (a b : List Char) (hm : isWs m = false) :
    rstripP isWs (a ++ m :: b) = a ++ m :: rstripP isWs b := by
  induction a with
  | nil =>
    rw [List.nil_append, List.nil_append]
    cases hB : rstripP isWs b with
    | nil => rw [rstrip_cons_of_nil isWs m b hB, if_neg (by rw [hm]; simp)]
    | cons x xs => rw [rstrip_cons_of_ne isWs m b xs x hB]
  | cons c a2 ih =>
    rw [List.cons_append]
    cases hsh : rstripP isWs (a2 ++ m :: b) with
    | nil =>
      rw [ih] at hsh
      rcases List.append_eq_nil.mp hsh with ⟨_, h2⟩
      cases h2
    | cons x xs =>
      rw [rstrip_cons_of_ne isWs c _ xs x hsh, List.cons_append, ← ih, hsh]

theorem csGo_skip (b : List Char) : csGo true b = csGo false (lstripP isWs b) := by
  induction b with
  | nil => rfl
  | cons c t ih =>
    unfold lstripP at ih ⊢
    rw [List.dropWhile_cons]
    by_cases hc : isWs c = true
    · rw [if_pos hc]
      simp only [csGo, hc, if_true]
      exact ih
    · rw [if_neg hc]
      simp only [csGo, hc, Bool.false_eq_true, if_false]

theorem csGo_id (l : List Char) (h : ¬ ',' ∈ l) : csGo false l = l := by
  induction l with
  | nil => rfl
  | cons c t ih =>
    have hc : (c == ',') = false := by
      rw [beq_eq_false_iff_ne]
      intro he
      exact h (he ▸ List.mem_cons_self c t)
    simp only [csGo, hc, Bool.false_eq_true, if_false]
    rw [ih (fun hm => h (List.mem_cons_of_mem c hm))]

theorem csGo_decomp (a b : List Char) (h : ¬ ',' ∈ a) :
    csGo false (a ++ ',' :: b) = a ++ ',' :: ' ' :: csGo false (lstripP isWs b) := by
  induction a with
  | nil =>
    rw [List.nil_append, List.nil_append]
    simp only [csGo, beq_self_eq_true, if_true]
    rw [csGo_skip]
  | cons c a2 ih =>
    have hc : (c == ',') = false := by
      rw [beq_eq_false_iff_ne]
      intro he
      exact h (he ▸ List.mem_cons_self c a2)
    rw [List.cons_append, List.cons_append]
    simp only [csGo, hc, Bool.false_eq_true, if_false]
    rw [ih (fun hm => h (List.mem_cons_of_mem c hm))]

theorem splitCm_ne (s : List Char) : splitCm s ≠ [] := by
  cases s with
  | nil => simp [splitCm]
  | cons c t =>
    simp only [splitCm]
    split
    · simp
    · cases h : splitCm t with
      | nil => simp [consHead]
      | cons g gs => simp [consHead]

theorem splitCm_pieces (s : List Char) (g : List Char) (hg : g ∈ splitCm s) :
    ¬ (',' ∈ g) := by
  induction s generalizing g with
  | nil =>
    simp [splitCm] at hg
    subst hg
    simp
  | cons c t ih =>
    simp only [splitCm] at hg
    by_cases hc : (c == ',') = true
    · rw [if_pos hc] at hg
      cases hg with
      | head => simp
      | tail _ hm => exact ih g hm
    · rw [if_neg hc] at hg
      cases h : splitCm t with
      | nil => exact absurd h (splitCm_ne t)
      | cons p ps =>
        rw [h, consHead] at hg
        cases hg with
        | head =>
          intro hmem
          cases hmem with
          | head => simp at hc
          | tail _ hm2 => exact ih p (h ▸ List.mem_cons_self p ps) hm2
        | tail _ hm => exact ih g (h ▸ List.mem_cons_of_mem p hm)

theorem splitCm_single (d : List Char) (h : ¬ ',' ∈ d) : splitCm d = [d] := by
  induction d with
  | nil => rfl
  | cons c u ih =>
    simp only [splitCm]
    have hc : ¬ (c == ',') = true := by
      simp only [beq_iff_eq]
      intro hh
      exact h (hh ▸ List.mem_cons_self c u)
    rw [if_neg hc, ih (fun hm => h (List.mem_cons_of_mem c hm)), consHead]

theorem splitCm_decomp (a b : List Char) (h : ¬ ',' ∈ a) :
    splitCm (a ++ ',' :: b) = a :: splitCm b := by
  induction a with
  | nil =>
    rw [List.nil_append]
    simp only [splitCm, beq_self_eq_true, if_true]
  | cons c a2 ih =>
    have hc : ¬ (c == ',') = true := by
      simp only [beq_iff_eq]
      intro hh
      exact h (hh ▸ List.mem_cons_self c a2)
    rw [List.cons_append]
    simp only [splitCm]
    rw [if_neg hc, ih (fun hm => h (List.mem_cons_of_mem c hm)), consHead]

theorem joinCm_splitCm (s : List Char) : joinCm (splitCm s) = s := by
  induction s with
  | nil => rfl
  | cons c t ih =>
    simp only [splitCm]
    by_cases hc : (c == ',') = true
    · rw [if_pos hc]
      cases h : splitCm t with
      | nil => exact absurd h (splitCm_ne t)
      | cons g gs =>
        rw [h] at ih
        simp only [beq_iff_eq] at hc
        subst hc
        cases gs with
        | nil =>
          simp only [joinCm] at ih ⊢
          rw [ih]
          rfl
        | cons g2 gs2 =>
          simp only [joinCm] at ih ⊢
          rw [ih]
          simp
    · rw [if_neg hc]
      cases h : splitCm t with
      | nil => exact absurd h (splitCm_ne t)
      | cons g gs =>
        rw [h] at ih
        cases gs with
        | nil =>
          simp only [consHead, joinCm] at ih ⊢
          rw [ih]
        | cons g2 gs2 =>
          simp only [consHead, joinCm] at ih ⊢
          rw [List.cons_append, ih]

theorem ncm_collapse (l : List Char) (h : ¬ ',' ∈ l) : ¬ ',' ∈ wsCollapseL l := by
  induction l with
  | nil => simp [wsCollapseL]
  | cons c t ih =>
    rw [wsCollapse_cons]
    unfold wsCollapseStep
    have iht := ih (fun hm => h (List.mem_cons_of_mem c hm))
    split
    · intro hm
      cases hm with
      | tail _ hm2 =>
        exact iht (List.Sublist.mem hm2 (List.tail_sublist _))
    · intro hm
      cases hm with
      | head => exact h (List.mem_cons_self _ _)
      | tail _ hm2 => exact iht hm2

theorem ncm_rstrip (l : List Char) (h : ¬ ',' ∈ l) : ¬ ',' ∈ rstripP isWs l :=
  fun hm => h (List.Sublist.mem hm (rstripP_sublist isWs l))

theorem ncm_lstrip (l : List Char) (h : ¬ ',' ∈ l) : ¬ ',' ∈ lstripP isWs l :=
  fun hm => h (List.Sublist.mem hm (List.dropWhile_sublist _))

theorem joinCS_cons₂ (d : List Char) (ds : List (List Char)) (h : ds ≠ []) :
    joinCS (d :: ds) = d ++ ',' :: ' ' :: joinCS ds := by
  cases ds with
  | nil => exact absurd rfl h
  | cons e es => rfl

/-- One full run of the comma/whitespace passes equals the per-piece
normal form joined with comma-space. -/
theorem normEq_pieces (gs : List (List Char)) (hne : gs ≠ [])
    (h : ∀ g ∈ gs, ¬ ',' ∈ g) :
    csGo false (rstripP isWs (lstripP isWs (wsCollapseL (wsCommaSubL (joinCm gs))))) =
      joinCS (gs.map compL) := by
  induction gs with
  | nil => exact absurd rfl hne
  | cons g gs2 ih =>
    have hg : ¬ ',' ∈ g := h g (List.mem_cons_self _ _)
    cases gs2 with
    | nil =>
      show csGo false (rstripP isWs (lstripP isWs (wsCollapseL (wsCommaSubL g)))) = _
      rw [wsCommaSub_id g hg]
      rw [csGo_id _ (ncm_rstrip _ (ncm_lstrip _ (ncm_collapse _ hg)))]
      rfl
    | cons g2 gs3 =>
      have hA : ¬ ',' ∈ lstripP isWs (wsCollapseL (rstripP isWs g)) :=
        ncm_lstrip _ (ncm_collapse _ (ncm_rstrip _ hg))
      show csGo false (rstripP isWs (lstripP isWs (wsCollapseL (wsCommaSubL
        (g ++ ',' :: joinCm (g2 :: gs3)))))) = _
      rw [wsCommaSub_decomp g _ hg]
      rw [collapse_distrib ',' _ _ (by decide)]
      rw [lstrip_decomp ',' _ _ (by decide)]
      rw [rstrip_decomp ',' _ _ (by decide)]
      rw [csGo_decomp _ _ hA]
      rw [collapse_rstrip_comm, lstrip_rstrip_comm]
      rw [show lstripP isWs (rstripP isWs (wsCollapseL (wsCommaSubL (joinCm (g2 :: gs3))))) =
        rstripP isWs (lstripP isWs (wsCollapseL (wsCommaSubL (joinCm (g2 :: gs3))))) from
        lstrip_rstrip_comm _]
      rw [ih (by simp) (fun q hq => h q (List.mem_cons_of_mem g hq))]
      conv_rhs => rw [List.map_cons, joinCS_cons₂ _ _ (by simp)]
      rfl

/-- One full run of the comma/whitespace passes, stated on the string
itself. -/
theorem normEq (x : List Char) :
    csGo false (rstripP isWs (lstripP isWs (wsCollapseL (wsCommaSubL x)))) =
      joinCS ((splitCm x).map compL) := by
  have h := normEq_pieces (splitCm x) (splitCm_ne x) (fun g hg => splitCm_pieces x g hg)
  rwa [joinCm_splitCm] at h

theorem noDbl_lstrip (p : Char → Bool) (s : List Char) (h : noDbl s = true) :
    noDbl (s.dropWhile p) = true := by
  induction s with
  | nil => rfl
  | cons c t ih =>
    rw [List.dropWhile_cons]
    by_cases hc : p c = true
    · rw [if_pos hc]
      exact ih (noDbl_tail c t h)
    · rw [if_neg hc]
      exact h

theorem noDbl_rstrip (s : List Char) (h : noDbl s = true) :
    noDbl (rstripP isWs s) = true := by
  induction s with
  | nil => rfl
  | cons c t ih =>
    cases hX : rstripP isWs t with
    | nil =>
      rw [rstrip_cons_of_nil isWs c t hX]
      by_cases hc : isWs c = true
      · rw [if_pos hc]
        rfl
      · rw [if_neg hc]
        rfl
    | cons x xs =>
      rw [rstrip_cons_of_ne isWs c t xs x hX]
      cases t with
      | nil => cases hX
      | cons u t2 =>
        have hxu : x = u := rstrip_head isWs u x t2 xs hX
        subst hxu
        simp only [noDbl, Bool.and_eq_true] at h ⊢
        refine ⟨h.1, ?_⟩
        have hrec := ih h.2
        rw [hX] at hrec
        exact hrec

theorem lstrip_space (X : List Char) : lstripP isWs (' ' :: X) = lstripP isWs X := by
  unfold lstripP
  rw [List.dropWhile_cons, if_pos (by decide)]

theorem comp_idem (g : List Char) : compL (compL g) = compL g := by
  unfold compL
  have hnd : noDbl (rstripP isWs (lstripP isWs (wsCollapseL g))) = true :=
    noDbl_rstrip _ (noDbl_lstrip isWs _ (collapse_noDbl g))
  rw [collapse_id _ hnd]
  rw [lstrip_rstrip_comm]
  unfold lstripP
  rw [dropWhile_idem]
  rw [rstrip_idem]

theorem comp_space_cons (d : List Char) : compL (' ' :: d) = compL d := by
  suffices h : lstripP isWs (wsCollapseL (' ' :: d)) = lstripP isWs (wsCollapseL d) by
    unfold compL
    rw [h]
  rw [wsCollapse_cons]
  unfold wsCollapseStep
  by_cases hh : headWs (wsCollapseL d) = true
  · rw [if_pos (by rw [hh]; decide)]
    cases hY : wsCollapseL d with
    | nil => rw [hY] at hh; cases hh
    | cons y ys =>
      rw [hY] at hh
      simp only [headWs] at hh
      simp only [List.tail_cons]
      rw [lstrip_space]
      unfold lstripP
      rw [List.dropWhile_cons, if_pos hh]
  · rw [if_neg (by rw [Bool.and_eq_true]; intro q; exact hh q.2)]
    exact lstrip_space _

theorem splitCm_joinCS (d : List Char) (ds : List (List Char))
    (h : ∀ e ∈ d :: ds, ¬ ',' ∈ e) :
    splitCm (joinCS (d :: ds)) = d :: ds.map (fun e => ' ' :: e) := by
  induction ds generalizing d with
  | nil => exact splitCm_single d (h d (List.mem_cons_self _ _))
  | cons e es ih =>
    rw [joinCS_cons₂ _ _ (by simp)]
    rw [splitCm_decomp _ _ (h d (List.mem_cons_self _ _))]
    have hsp : splitCm (' ' :: joinCS (e :: es)) = consHead ' ' (splitCm (joinCS (e :: es))) := by
      simp only [splitCm]
      rw [if_neg (by decide)]
    rw [hsp, ih e (fun q hq => h q (List.mem_cons_of_mem d hq)), consHead]
    simp

/-- List-level idempotence of the cfel clean_text pipeline. -/
theorem cleanL_idem (s : List Char) : cleanL (cleanL s) = cleanL s := by
  have h1 : cleanL s = joinCS ((splitCm (parenSubL s)).map compL) := normEq (parenSubL s)
  have hds_ncm : ∀ d ∈ (splitCm (parenSubL s)).map compL, ¬ ',' ∈ d := by
    intro d hd
    rcases List.mem_map.mp hd with ⟨g, hg, rfl⟩
    exact ncm_rstrip _ (ncm_lstrip _ (ncm_collapse _ (splitCm_pieces _ g hg)))
  have hds_fix : ∀ d ∈ (splitCm (parenSubL s)).map compL, compL d = d := by
    intro d hd
    rcases List.mem_map.mp hd with ⟨g, hg, rfl⟩
    exact comp_idem g
  have hnp : noPairB (cleanL s) = true := by
    have hf : (cleanL s).filter parenChar = (parenSubL s).filter parenChar := by
      show (csGo false (rstripP isWs (lstripP isWs (wsCollapseL
        (wsCommaSubL (parenSubL s)))))).filter parenChar = _
      rw [filter_csGo, filter_rstrip, filter_lstrip, filter_wsCollapse, filter_wsCommaSub]
    rw [noPairB_filter, hf, ← noPairB_filter]
    exact parenSub_noPair s
  have h2 : parenSubL (cleanL s) = cleanL s := parenSub_id _ hnp
  show csGo false (rstripP isWs (lstripP isWs (wsCollapseL
    (wsCommaSubL (parenSubL (cleanL s)))))) = cleanL s
  rw [h2, normEq (cleanL s), h1]
  cases hp : (splitCm (parenSubL s)).map compL with
  | nil =>
    exact absurd (List.map_eq_nil_iff.mp hp) (splitCm_ne (parenSubL s))
  | cons d0 ds1 =>
    rw [hp] at hds_ncm hds_fix
    rw [splitCm_joinCS d0 ds1 hds_ncm]
    rw [List.map_cons, List.map_map]
    have hmap : List.map (compL ∘ fun e => ' ' :: e) ds1 = List.map id ds1 :=
      List.map_congr_left (fun e he => by
        show compL (' ' :: e) = e
        rw [comp_space_cons]
        exact hds_fix e (List.mem_cons_of_mem d0 he))
    rw [hmap, List.map_id, hds_fix d0 (List.mem_cons_self _ _)]

/-- C5: the text cleaner is idempotent: for every input string,
`clean_text (clean_text x) = clean_text x`, where clean_text removes
parenthesized blocks, fixes whitespace before commas, collapses
whitespace runs with trimming, and normalizes every comma to be
followed by exactly one space. -/
theorem c5_clean_text_idempotent (s : String) :
    clean_text (clean_text s) = clean_text s := by
  unfold clean_text
  congr 1
  exact cleanL_idem s.toList

end MmBot
